import Mathlib

/-!
Shallow embedding of the z80count core (src/z80count/z80count.py): the
instruction matcher (`Parser._LINE_RE`, `Parser.lookup`), the cost table
loader (`Parser._load_table`, `Parser._init_entry`), the accumulator
(`update_counters`), the formatter (`format_line`, `comment_alignment`,
`line_length`) and the per-line orchestrator (`z80count`).

Python strings are `String` / `List Char`, Python ints are `Int` (with
floor division `Int.fdiv` / floor modulo `Int.fmod`, as in Python), and
code that can raise returns `Option`.  The externally loaded instruction
patterns (compiled with `re.compile`) are embedded as abstract boolean
matchers `List Char → Bool`; the fixed regexes written in the source
(`_LINE_RE`, `OUR_COMMENT`, and the wrapper `^\s*…\s*(;.*)?$` built in
`_init_entry`) are translated concretely.
-/

namespace Z80Count

/-- Python `\s` / `str.isspace` on the ASCII range: space, tab, newline,
carriage return, vertical tab, form feed. -/
def isPySpace (c : Char) : Bool :=
  c = ' ' || c = '\t' || c = '\n' || c = '\r' || c = '\x0b' || c = '\x0c'

/-- Python `\w` on the ASCII range: letters, digits, underscore. -/
def isWordChar (c : Char) : Bool :=
  c.isAlphanum || c = '_'

/-- Character class `[$.\w]` used for labels in `Parser._LINE_RE`. -/
def isLabelChar (c : Char) : Bool :=
  isWordChar c || c = '$' || c = '.'

/-- Character class `[0-9.\s/]` of the `OUR_COMMENT` regex. -/
def isCommentChar (c : Char) : Bool :=
  c.isDigit || c = '.' || c = '/' || isPySpace c

/-- Python `str.rstrip()` (no argument): drop trailing whitespace. -/
def pyRstrip (s : List Char) : List Char :=
  (s.reverse.dropWhile isPySpace).reverse

/-- Python `str.lstrip()` (no argument): drop leading whitespace. -/
def pyLstrip (s : List Char) : List Char :=
  s.dropWhile isPySpace

/-- Python `str.upper()` on the ASCII range. -/
def pyUpper (s : List Char) : List Char :=
  s.map Char.toUpper

/-- Python `str.split(sep)` for a one-character separator. -/
def splitOnChar (sep : Char) : List Char → List (List Char)
  | [] => [[]]
  | c :: rest =>
    let r := splitOnChar sep rest
    if c = sep then [] :: r
    else
      match r with
      | [] => [[c]]
      | h :: t => (c :: h) :: t

/-- Python `int(str)` restricted to the shapes that occur in cycle-count
fields: optional surrounding whitespace, an optional sign, then one or
more decimal digits.  `none` models a `ValueError`. -/
def pyInt? (s : List Char) : Option Int :=
  let t := pyLstrip (pyRstrip s)
  let core := match t with
    | '-' :: ds => some (true, ds)
    | '+' :: ds => some (false, ds)
    | ds => some (false, ds)
  match core with
  | some (neg, ds) =>
    if ds = [] || !(ds.all Char.isDigit) then none
    else
      let v : Int := ds.foldl (fun a c => a * 10 + (c.toNat - '0'.toNat)) 0
      some (if neg then -v else v)
  | none => none

/-- The `$` assertion of Python `re` (without `re.M`): it holds at the end
of the string, or just before a newline that is the last character. -/
def endOK : List Char → Bool
  | [] => true
  | ['\n'] => true
  | _ => false

/-!
## `Parser._LINE_RE`: `^([$.\w]+:)?\s*(?P<operator>\w+)(?P<rest>\s+.*)?$`

`re.match` semantics, resolved deterministically.  The greedy label run
stops at the first non-label character, so the only alternatives are
"label present" (when that character is `:`) and "label absent"; inside
the remainder, `\s*`/`\w+` runs are maximal and `.` does not match a
newline, with `$` as in `endOK`.
-/

/-- Match `(\s+.*)?$` against the remainder of the line.  Returns
`some rest` on success, where `rest` is the text captured by the
`rest` group (`none` when the optional group is skipped). -/
def restMatch (r : List Char) : Option (Option (List Char)) :=
  let i := (r.takeWhile isPySpace).length
  if i = 0 then
    if endOK r then some none else none
  else
    let j := i + ((r.drop i).takeWhile (fun c => c ≠ '\n')).length
    if endOK (r.drop j) then some (some (r.take j))
    else if endOK r then some none
    else none

/-- Match `\s*(?P<operator>\w+)(?P<rest>\s+.*)?$`. -/
def lineMatchCore (s : List Char) : Option (List Char × Option (List Char)) :=
  let s1 := s.drop (s.takeWhile isPySpace).length
  let op := s1.takeWhile isWordChar
  if op.isEmpty then none
  else (restMatch (s1.drop op.length)).map (fun rest => (op, rest))

/-- Full `Parser._LINE_RE` match: `(label?, operator, rest?)`. -/
def lineMatch (s : List Char) : Option (Option (List Char) × List Char × Option (List Char)) :=
  let lab := s.takeWhile isLabelChar
  let withLabel :=
    if !lab.isEmpty && (s.drop lab.length).head? = some ':' then
      (lineMatchCore (s.drop (lab.length + 1))).map
        (fun p => (some (lab ++ [':']), p.1, p.2))
    else none
  match withLabel with
  | some m => some m
  | none => (lineMatchCore s).map (fun p => ((none : Option (List Char)), p.1, p.2))

/-- `Parser._extract_mnemonic`: the operator group, uppercased. -/
def extract_mnemonic (line : String) : Option String :=
  (lineMatch line.data).map (fun m => ⟨pyUpper m.2.1⟩)

/-- `Parser._remove_label`: `operator + (rest or "")`. -/
def remove_label (line : String) : Option String :=
  (lineMatch line.data).map (fun m => ⟨m.2.1 ++ m.2.2.getD []⟩)

/-!
## The compiled entry regex `^\s*<regex>\s*(;.*)?$` (with `re.I`)

The inner table pattern is abstract (`pat : List Char → Bool`); the
wrapper added by `Parser._init_entry` is concrete.  `search` on a
`^`-anchored pattern only matches at position 0, hence the existential
decomposition below: some whitespace prefix, a slice accepted by the
pattern, more whitespace, then an optional `;`-led comment reaching `$`.
-/

/-- Match `(;.*)?$` at tail `t`. -/
def commentTailOK (t : List Char) : Bool :=
  endOK t ||
    (match t with
     | ';' :: u => endOK (u.drop ((u.takeWhile (fun c => c ≠ '\n')).length))
     | _ => false)

/-- `entry["cregex"].search(line)` as a boolean: does
`^\s*<pat>\s*(;.*)?$` accept `l`? -/
def cregex_match (pat : List Char → Bool) (l : List Char) : Bool :=
  (List.range ((l.takeWhile isPySpace).length + 1)).any fun i =>
    (List.range (l.length - i + 1)).any fun d =>
      pat ((l.drop i).take d) &&
        (let rest := l.drop (i + d)
         (List.range ((rest.takeWhile isPySpace).length + 1)).any fun k =>
           commentTailOK (rest.drop k))

/-!
## Table entries
-/

/-- One record of the instruction table.  `caseStr`, `regex`, `cycles`
and `w` are the fields loaded from `z80table.json` (the raw regex string
is embedded as its matching function); the remaining fields model the
keys added in place by `Parser._init_entry` (`none` / `false` = key
absent). -/
structure Entry where
  caseStr : String
  regex : List Char → Bool
  cycles : String
  w : Int
  cregex : Option (List Char → Bool) := none
  t_states_or_not_met : Option Int := none
  t_states_met : Option Int := none
  initialized : Bool := false

/-- `Parser._init_entry`: compile the wrapped regex and parse the cycle
cost (`"M/N"` for a conditional cost, a plain integer otherwise).
`none` models an exception escaping `int()`. -/
def init_entry (entry : Entry) : Option Entry :=
  let cr := cregex_match entry.regex
  if entry.cycles.data.contains '/' then
    match splitOnChar '/' entry.cycles.data with
    | c0 :: c1 :: _ =>
      match pyInt? c0, pyInt? c1 with
      | some met, some notMet =>
        some { entry with
                cregex := some cr
                t_states_or_not_met := some notMet
                t_states_met := some met
                initialized := true }
      | _, _ => none
    | _ => none
  else
    match pyInt? entry.cycles.data with
    | some v =>
      some { entry with
              cregex := some cr
              t_states_or_not_met := some v
              t_states_met := some 0
              initialized := true }
    | none => none

/-- `update_counters`: the running-total update.  A truthy (non-zero)
`_t_states_met` yields the conditional total `total + met`, otherwise the
conditional total is `0`; the running total always advances by
`_t_states_or_not_met`.  `none` models a `KeyError` on a missing key. -/
def update_counters (entry : Entry) (total : Int) : Option (Int × Int) :=
  match entry.t_states_met, entry.t_states_or_not_met with
  | some met, some notMet =>
    some (total + notMet, if met ≠ 0 then total + met else 0)
  | _, _ => none

/-!
## The table: a mnemonic-keyed ordered dictionary

Python's `dict` (insertion ordered, with in-place mutation of the entry
lists) is an association list.
-/

/-- The cost table: mnemonic to ordered entry list. -/
abbrev Table : Type := List (String × List Entry)

/-- `self._table[mnemo]` / `mnemo in self._table`. -/
def tableFind : Table → String → Option (List Entry)
  | [], _ => none
  | (k, es) :: rest, m => if k = m then some es else tableFind rest m

/-- Store the updated entry list back under its key (the Python code does
this by mutating the list in place). -/
def tableSet : Table → String → List Entry → Table
  | [], _, _ => []
  | (k, es) :: rest, m, new =>
    if k = m then (k, new) :: rest else (k, es) :: tableSet rest m new

/-- `res[mnemo].append(i)` creating the key on first use, preserving
dict insertion order. -/
def addToTable : Table → String → Entry → Table
  | [], m, e => [(m, [e])]
  | (k, es) :: rest, m, e =>
    if k = m then (k, es ++ [e]) :: rest else (k, es) :: addToTable rest m e

/-- Stable insertion by ascending weight: the new entry goes after every
entry whose weight is less than or equal to its own. -/
def insertByW (e : Entry) : List Entry → List Entry
  | [] => [e]
  | x :: xs => if e.w < x.w then e :: x :: xs else x :: insertByW e xs

/-- `table.sort(key=lambda o: o["w"])`: Python's sort is stable, and a
stable sort by one key is unique, so insertion sort reproduces it. -/
def sortByW (l : List Entry) : List Entry :=
  l.foldl (fun acc e => insertByW e acc) []

/-- One grouping step of `Parser._load_table`: derive the record's
mnemonic from its canonical form and append it to that mnemonic's list.
`none` models the `assert mnemo is not None` failing. -/
def load_step (res : Table) (i : Entry) : Option Table :=
  match extract_mnemonic i.caseStr with
  | some m => some (addToTable res m i)
  | none => none

/-- `Parser._load_table` after the JSON is read: sort by weight, derive
each record's mnemonic from its canonical form, group by mnemonic. -/
def load_table (raw : List Entry) : Option Table :=
  (sortByW raw).foldlM load_step ([] : Table)

/-- The entry scan inside `Parser.lookup`: lazily initialize each entry,
return the first whose compiled regex accepts the label-stripped line,
together with the (possibly mutated) entry list.  `none` models an
exception (failed `int()` in `_init_entry`, or a missing `cregex` key). -/
def lookupEntries : List Entry → List Char → Option (Option Entry × List Entry)
  | [], _ => some (none, [])
  | e :: rest, l =>
    match (if e.initialized then some e else init_entry e) with
    | none => none
    | some e1 =>
      match e1.cregex with
      | none => none
      | some rx =>
        if rx l then some (some e1, e1 :: rest)
        else
          match lookupEntries rest l with
          | none => none
          | some (r, rest1) => some (r, e1 :: rest1)

/-- `Parser.lookup`: extract the mnemonic, strip the label, scan that
mnemonic's entries in stored order.  The returned table reflects the
in-place lazy initialization. -/
def lookup (table : Table) (line : String) : Option (Option Entry × Table) :=
  match extract_mnemonic line with
  | none => some (none, table)
  | some m =>
    match tableFind table m with
    | none => some (none, table)
    | some entries =>
      match remove_label line with
      | none => none
      | some sl =>
        match lookupEntries entries sl.data with
        | none => none
        | some (r, entries1) => some (r, tableSet table m entries1)

/-!
## `OUR_COMMENT` and the formatter
-/

/-- `OUR_COMMENT.search`: first (leftmost) occurrence of
`\[[0-9.\s/]+\]`, returned as the matched substring.  The greedy `+` run
is maximal (no backtracking can help, since `]` is not in the class), and
on failure the scan restarts one character later. -/
def OUR_COMMENT_search : List Char → Option (List Char)
  | [] => none
  | c :: rest =>
    if c = '[' then
      if !(rest.takeWhile isCommentChar).isEmpty &&
          (rest.drop (rest.takeWhile isCommentChar).length).head? = some ']' then
        some ('[' :: (rest.takeWhile isCommentChar ++ [']']))
      else OUR_COMMENT_search rest
    else OUR_COMMENT_search rest

/-- Fuel-indexed scan of Python `s.replace(pat, "")`: at each position,
if `pat` is a prefix of the remainder, drop it and continue past it,
otherwise keep one character.  The fuel only serves structural
termination; `pyReplace` starts it at the string length, which every
step keeps sufficient (a match consumes at least one character). -/
def pyReplaceAux (pat : List Char) : Nat → List Char → List Char
  | _, [] => []
  | 0, s => s
  | Nat.succ fuel, c :: rest =>
    if ¬ pat.isEmpty ∧ pat.isPrefixOf (c :: rest) then
      pyReplaceAux pat fuel ((c :: rest).drop pat.length)
    else c :: pyReplaceAux pat fuel rest

/-- Python `s.replace(pat, "")`: remove every non-overlapping occurrence
of `pat`, scanning left to right. -/
def pyReplace (s pat : List Char) : List Char :=
  pyReplaceAux pat s.length s

/-- `line.rsplit(";", 1)`: split at the last `;`.  `(s, none)` when there
is no `;`, otherwise `(before, some after)`. -/
def rsplitSemiAux : List Char → Option (List Char × List Char)
  | [] => none
  | c :: rest =>
    match rsplitSemiAux rest with
    | some (b, a) => some (c :: b, a)
    | none => if c = ';' then some ([], rest) else none

/-- `line.rsplit(";", 1)` packaged as code part plus optional comment. -/
def rsplitSemi (s : List Char) : List Char × Option (List Char) :=
  match rsplitSemiAux s with
  | some (b, a) => (b, some a)
  | none => (s, none)

/-- `line_length`: the tab-aware length, each tab advancing to the next
multiple of `tab_width`, every other character advancing by one. -/
def line_length (line : String) (tab_width : Int) : Int :=
  line.data.foldl
    (fun length i =>
      if i = '\t' then ((length + tab_width).fdiv tab_width) * tab_width
      else length + 1)
    0

/-- `comment_alignment`: the padding that brings a fresh comment to the
requested column (Python `"\t" * n` / `" " * n` of a negative count is
empty, hence `Int.toNat`). -/
def comment_alignment (line : String) (column : Int) (use_tabs : Bool) (tab_width : Int) :
    String :=
  let expected_length := column - 1
  let length := line_length line tab_width
  if length ≥ expected_length then " "
  else
    let p :=
      if use_tabs then
        let tab_stop := (expected_length.fdiv tab_width) * tab_width + 1
        if tab_stop > length then
          let extra_tabs := (tab_stop - length).fdiv tab_width
          let extra_tabs := if length.fmod tab_width > 1 then extra_tabs + 1 else extra_tabs
          (extra_tabs, expected_length - tab_stop)
        else (0, expected_length - length)
      else (0, expected_length - length)
    ⟨List.replicate p.1.toNat '\t' ++ List.replicate p.2.toNat ' '⟩

/-- The fresh annotation text built at the top of `format_line`:
`"; [" + cycles`, the optional subtotal part, `"]"`, and the optional
debug suffix. -/
def format_comment (entry : Entry) (total total_cond : Int) (subt debug : Bool) :
    List Char :=
  let comment := ("; [".data) ++ entry.cycles.data
  let comment :=
    if subt then
      if total_cond ≠ 0 then
        comment ++ (" .. ".data) ++ (toString total_cond).data ++ ['/'] ++
          (toString total).data ++ [']']
      else comment ++ (" .. ".data) ++ (toString total).data ++ [']']
    else comment ++ [']']
  if debug then comment ++ (" case\x7b".data) ++ entry.caseStr.data ++ ['\x7d']
  else comment

/-- The comment-rewriting step of `format_line` when `update` is set:
find a previous annotation with `OUR_COMMENT` and, if found, delete it
with `str.replace` (which removes every occurrence of the matched
substring). -/
def strip_old_comment (c1 : List Char) : List Char :=
  match OUR_COMMENT_search c1 with
  | some m => pyReplace c1 m
  | none => c1

/-- `format_line`: split the right-stripped line at the last `;`, build
the fresh annotation, align it when the line had no comment, otherwise
reattach the (optionally stripped) old comment after a single space. -/
def format_line (line : String) (entry : Entry) (total total_cond : Int)
    (subt update : Bool) (column : Int) (debug use_tabs : Bool) (tab_width : Int) :
    String :=
  let parts := rsplitSemi (pyRstrip line.data)
  let comment := format_comment entry total total_cond subt debug
  let comment :=
    if parts.2 = none then
      (comment_alignment ⟨parts.1⟩ column use_tabs tab_width).data ++ comment
    else comment
  let out := parts.1 ++ comment
  let out :=
    match parts.2 with
    | some c1 =>
      let c1 := if update then strip_old_comment c1 else c1
      out ++ [' '] ++ pyLstrip c1
    | none => out
  ⟨out ++ ['\n']⟩

/-- `z80count`: the per-line orchestrator.  Threads the lazily mutated
table; `none` models an uncaught exception. -/
def z80count (line : String) (table : Table) (total : Int) (subt no_update : Bool)
    (column : Int) (use_tabs : Bool) (tab_width : Int) (debug : Bool) :
    Option (String × Int × Table) :=
  match lookup table line with
  | none => none
  | some (entryOpt, table1) =>
    match entryOpt with
    | none => some (⟨pyRstrip line.data ++ ['\n']⟩, total, table1)
    | some e =>
      match update_counters e total with
      | none => none
      | some (total2, total_cond) =>
        some (format_line line e total2 total_cond subt (!no_update) column debug
                use_tabs tab_width,
              total2, table1)

/-!
## Specification-worded definitions

These two definitions follow the specification's wording of the
alignment contract (spec §4.5), to be compared with the source-derived
`line_length` / `comment_alignment`.
-/

/-- Spec wording: the tab-aware length of a text, where each tab advances
the position to the next multiple of `tab_width` and every other
character advances by one. -/
def tab_aware_length (line : String) (tab_width : Int) : Int :=
  line.data.foldl
    (fun len c => if c = '\t' then (len.fdiv tab_width + 1) * tab_width else len + 1)
    0

/-- Spec wording of the alignment function: a single space when the
tab-aware length is at least `column - 1`; otherwise `column - 1 - length`
spaces when not using tabs; otherwise, with
`tab_stop = floor((column - 1) / tab_width) * tab_width + 1`, when
`tab_stop > length` emit `floor((tab_stop - length) / tab_width)` tabs
plus one extra tab if `length mod tab_width > 1`, then
`column - 1 - tab_stop` spaces, and when `tab_stop ≤ length` emit zero
tabs and `column - 1 - length` spaces. -/
def alignment_spec (line : String) (column : Int) (use_tabs : Bool) (tab_width : Int) :
    String :=
  let length := tab_aware_length line tab_width
  if length ≥ column - 1 then " "
  else if !use_tabs then ⟨List.replicate (column - 1 - length).toNat ' '⟩
  else
    let tab_stop := ((column - 1).fdiv tab_width) * tab_width + 1
    if tab_stop > length then
      let tabs :=
        (tab_stop - length).fdiv tab_width +
          (if length.fmod tab_width > 1 then 1 else 0)
      ⟨List.replicate tabs.toNat '\t' ++ List.replicate (column - 1 - tab_stop).toNat ' '⟩
    else ⟨List.replicate (column - 1 - length).toNat ' '⟩

/-!
## Concrete fixtures used by witnesses and counterexamples

The inner regexes are abstract matchers, so the fixtures carry simple
exact-match patterns.
-/

/-- An unconditional 4-cycle record (a `NOP`-like instruction). -/
def eNOP : Entry :=
  { caseStr := "NOP", regex := fun l => l == "NOP".data, cycles := "4", w := 1 }

/-- A conditional `13/8` record (a `DJNZ`-like instruction). -/
def eDJNZ : Entry :=
  { caseStr := "DJNZ", regex := fun l => l == "DJNZ".data, cycles := "13/8", w := 1 }

/-- `eNOP` after `Parser._init_entry`. -/
def eNOPi : Entry :=
  { caseStr := "NOP", regex := fun l => l == "NOP".data, cycles := "4", w := 1,
    cregex := some (cregex_match (fun l => l == "NOP".data)),
    t_states_or_not_met := some 4, t_states_met := some 0, initialized := true }

/-- `eDJNZ` after `Parser._init_entry`. -/
def eDJNZi : Entry :=
  { caseStr := "DJNZ", regex := fun l => l == "DJNZ".data, cycles := "13/8", w := 1,
    cregex := some (cregex_match (fun l => l == "DJNZ".data)),
    t_states_or_not_met := some 8, t_states_met := some 13, initialized := true }

/-- An unconditional 7-cycle record. -/
def eSeven : Entry :=
  { caseStr := "LD A, B", regex := fun l => l == "LD A, B".data, cycles := "7", w := 1 }

/-- A one-mnemonic table holding the fresh `eNOP` record. -/
def tblNOP : Table := [("NOP", [eNOP])]

/-- `tblNOP` after the lazy initialization performed by the first lookup. -/
def tblNOPi : Table := [("NOP", [eNOPi])]

/-- 48 non-whitespace characters: tab-aware length 48 under any positive
tab width. -/
def text48 : String := "aaaaaaaaaaaaaaaaaaaaaaaaaaaaaaaaaaaaaaaaaaaaaaaa"

/-!
## C1: the accumulator update
-/

/-- **C1.** For every record and running total: a conditional record
(cycles `"M/N"`) yields `new_total = total + N`, with
`conditional_total = total + M` when `M` is non-zero and `0` when `M` is
zero; an unconditional record (cycles `"C"`) yields
`new_total = total + C` and `conditional_total = 0`. -/
theorem C1_accumulator_update (e e1 : Entry) (total : Int)
    (hinit : init_entry e = some e1) :
    (∀ c0 c1 cs M N, e.cycles.data.contains '/' = true →
        splitOnChar '/' e.cycles.data = c0 :: c1 :: cs →
        pyInt? c0 = some M → pyInt? c1 = some N →
        update_counters e1 total =
          some (total + N, if M = 0 then 0 else total + M)) ∧
    (∀ C, e.cycles.data.contains '/' = false → pyInt? e.cycles.data = some C →
        update_counters e1 total = some (total + C, 0)) := by
  constructor
  · intro c0 c1 cs M N hsl hsp h0 h1
    simp only [init_entry, hsl, hsp, h0, h1, if_true] at hinit
    cases hinit
    simp only [update_counters]
    by_cases hM : M = 0 <;> simp [hM]
  · intro C hsl h0
    simp only [init_entry, hsl, h0, Bool.false_eq_true, if_false] at hinit
    cases hinit
    simp [update_counters]

/-- Witness for C1: the conditional `13/8` record at total 100 and the
unconditional `4` record at total 7. -/
theorem C1_accumulator_update_witness :
    update_counters eDJNZi 100 = some (108, 113) ∧
      update_counters eNOPi 7 = some (11, 0) := by
  constructor
  · have h := (C1_accumulator_update eDJNZ eDJNZi 100 rfl).1 "13".data "8".data [] 13 8
      (by decide) (by decide) (by decide) (by decide)
    simpa using h
  · have h := (C1_accumulator_update eNOP eNOPi 7 rfl).2 4 (by decide) (by decide)
    simpa using h

/-!
## C8: monotonicity of the running total
-/

/-- **C8.** Whenever a record's fall-through (not-met or unconditional)
cost is non-negative, the accumulator never decreases the running
total. -/
theorem C8_total_monotone (e : Entry) (total nm t2 tc : Int)
    (hn : e.t_states_or_not_met = some nm) (hpos : 0 ≤ nm)
    (hu : update_counters e total = some (t2, tc)) : total ≤ t2 := by
  rw [update_counters, hn] at hu
  cases hmet : e.t_states_met with
  | none => rw [hmet] at hu; cases hu
  | some met =>
    rw [hmet] at hu
    cases hu
    omega

/-- Witness for C8 at the `13/8` record and total 100. -/
theorem C8_total_monotone_witness : (100 : Int) ≤ 108 :=
  C8_total_monotone eDJNZi 100 8 108 113 rfl (by decide) (by decide)

/-!
## C10: the alignment padding can be empty
-/

/-- **C10.** With tabs enabled, tab width 8 and column 50, a code text of
tab-aware length 48 (strictly below `column - 1 = 49`) gets an empty
padding: zero tabs and zero spaces, so the annotation is appended with no
separating space. -/
theorem C10_empty_padding :
    line_length text48 8 = 48 ∧
      line_length text48 8 < 50 - 1 ∧
      comment_alignment text48 50 true 8 = "" ∧
      format_line text48 eNOPi 4 0 false true 50 false true 8 =
        "aaaaaaaaaaaaaaaaaaaaaaaaaaaaaaaaaaaaaaaaaaaaaaaa; [4]\n" := by
  refine ⟨by decide, by decide, by decide, ?_⟩
  rfl

/-!
## C6: the alignment function matches the spec's description
-/

/-- Pointwise agreement of the two tab-advance rules for a positive tab
width. -/
theorem line_length_eq_tab_aware (line : String) (tab_width : Int)
    (h : 0 < tab_width) : line_length line tab_width = tab_aware_length line tab_width := by
  rw [line_length, tab_aware_length]
  generalize (0 : Int) = a
  induction line.data generalizing a with
  | nil => rfl
  | cons c cs ih =>
    simp only [List.foldl_cons]
    rcases eq_or_ne c '\t' with hc | hc
    · rw [hc]
      simp only [if_pos rfl]
      rw [Int.fdiv_eq_ediv _ (le_of_lt h), Int.fdiv_eq_ediv _ (le_of_lt h)]
      have : a + tab_width = a + 1 * tab_width := by ring
      rw [this, Int.add_mul_ediv_right _ _ (ne_of_gt h)]
      exact ih _
    · simp only [if_neg hc]
      exact ih _

/-- **C6.** For every code text, column, tabs flag and positive tab
width, `comment_alignment` returns exactly what the specification's
description of the alignment algorithm prescribes. -/
theorem C6_alignment_matches_spec (line : String) (column : Int) (use_tabs : Bool)
    (tab_width : Int) (h : 0 < tab_width) :
    comment_alignment line column use_tabs tab_width =
      alignment_spec line column use_tabs tab_width := by
  rw [comment_alignment, alignment_spec, ← line_length_eq_tab_aware line tab_width h]
  rcases le_or_lt (column - 1) (line_length line tab_width) with hge | hlt
  · rw [if_pos hge, if_pos hge]
  · rw [if_neg (not_le.mpr hlt), if_neg (not_le.mpr hlt)]
    cases use_tabs with
    | false => simp
    | true =>
      simp only [Bool.not_true, Bool.false_eq_true, if_false]
      by_cases hc :
          line_length line tab_width < (column - 1).fdiv tab_width * tab_width + 1
      · by_cases hm : 1 < (line_length line tab_width).fmod tab_width <;>
          simp [hc, hm]
      · simp [hc]

/-- Witness for C6 at a concrete text, column and tab width. -/
theorem C6_alignment_matches_spec_witness :
    comment_alignment "ld a, 1" 20 true 4 = alignment_spec "ld a, 1" 20 true 4 :=
  C6_alignment_matches_spec "ld a, 1" 20 true 4 (by decide)

/-!
## C3: replacement of a previous annotation

Python's `str.replace(old, "")` removes *every* occurrence of `old`, not
just the one found by `OUR_COMMENT.search`; the claim's "removes exactly
that one matched substring" therefore fails when the matched text occurs
more than once in the trailing comment.  When it occurs exactly once,
removal is exact and the rest of the comment is preserved.
-/

/-- A successful `OUR_COMMENT` search never returns the empty string. -/
theorem OUR_COMMENT_search_ne_nil (s m : List Char)
    (h : OUR_COMMENT_search s = some m) : m ≠ [] := by
  induction s with
  | nil => simp [OUR_COMMENT_search] at h
  | cons c rest ih =>
    rw [OUR_COMMENT_search] at h
    split at h
    · split at h
      · injection h with h1
        subst h1
        simp
      · exact ih h
    · exact ih h

/-- The replace scan is the identity on a string in which `pat` occurs
at no position (for any fuel). -/
theorem pyReplaceAux_no_occurrence (pat : List Char) (fuel : Nat) (b : List Char)
    (hb : ∀ j ≤ b.length, pat.isPrefixOf (b.drop j) = false) :
    pyReplaceAux pat fuel b = b := by
  induction fuel generalizing b with
  | zero => cases b <;> rfl
  | succ f ih =>
    cases b with
    | nil => rfl
    | cons c r =>
      have h0 := hb 0 (by omega)
      rw [List.drop_zero] at h0
      rw [pyReplaceAux, if_neg (by simp [h0])]
      congr 1
      apply ih
      intro j hj
      have := hb (j + 1) (by simpa using hj)
      simpa [List.drop_succ_cons] using this

/-- The replace scan does not depend on the fuel once the fuel covers the
string length. -/
theorem pyReplaceAux_fuel (pat : List Char) (fuel fuel2 : Nat) (s : List Char)
    (h1 : s.length ≤ fuel) (h2 : s.length ≤ fuel2) :
    pyReplaceAux pat fuel s = pyReplaceAux pat fuel2 s := by
  induction fuel generalizing fuel2 s with
  | zero =>
    cases s with
    | nil => cases fuel2 <;> rfl
    | cons c r => simp at h1
  | succ f ih =>
    cases s with
    | nil => cases fuel2 <;> rfl
    | cons c r =>
      cases fuel2 with
      | zero => simp at h2
      | succ f2 =>
        rw [pyReplaceAux, pyReplaceAux]
        by_cases hc : ¬ pat.isEmpty ∧ pat.isPrefixOf (c :: r)
        · rw [if_pos hc, if_pos hc]
          have hplen : 1 ≤ pat.length := by
            have hne : pat ≠ [] := by simpa [List.isEmpty_iff] using hc.1
            exact List.length_pos.mpr hne
          apply ih
          · simp only [List.length_drop, List.length_cons] at h1 ⊢
            omega
          · simp only [List.length_drop, List.length_cons] at h2 ⊢
            omega
        · rw [if_neg hc, if_neg hc]
          simp only [List.length_cons] at h1 h2
          rw [ih f2 r (by omega) (by omega)]

/-- The replace scan on `a ++ pat ++ b`, when no occurrence of `pat`
starts inside `a`: it keeps `a`, removes the displayed occurrence, and
continues on `b` alone. -/
theorem pyReplaceAux_leading (pat : List Char) (hpat : pat ≠ [])
    (a b : List Char) (fuel : Nat) (hf : (a ++ pat ++ b).length ≤ fuel)
    (ha : ∀ i < a.length, pat.isPrefixOf ((a ++ pat ++ b).drop i) = false) :
    pyReplaceAux pat fuel (a ++ pat ++ b) = a ++ pyReplaceAux pat b.length b := by
  induction a generalizing fuel with
  | nil =>
    simp only [List.nil_append] at hf ⊢
    cases pat with
    | nil => exact absurd rfl hpat
    | cons p ps =>
      cases fuel with
      | zero => simp at hf
      | succ f =>
        rw [List.cons_append, pyReplaceAux, if_pos ?_]
        · rw [← List.cons_append, List.drop_left]
          apply pyReplaceAux_fuel
          · simp only [List.cons_append, List.length_cons, List.length_append] at hf ⊢
            omega
          · exact le_refl _
        · constructor
          · simp
          · rw [← List.cons_append]
            exact List.isPrefixOf_iff_prefix.mpr (List.prefix_append _ _)
  | cons x a1 ih =>
    cases fuel with
    | zero => simp at hf
    | succ f =>
      have h0 := ha 0 (by simp)
      rw [List.drop_zero] at h0
      simp only [List.cons_append] at h0 hf ⊢
      have h0p : ¬ pat <+: (x :: (a1 ++ (pat ++ b))) := by
        intro hp
        rw [List.append_assoc] at h0
        rw [List.isPrefixOf_iff_prefix.mpr hp] at h0
        simp at h0
      rw [pyReplaceAux, if_neg (by simp [h0p])]
      congr 1
      have ha1 : ∀ i < a1.length, pat.isPrefixOf ((a1 ++ pat ++ b).drop i) = false := by
        intro i hi
        have := ha (i + 1) (by simpa using hi)
        simpa [List.drop_succ_cons] using this
      simpa using ih f (by simpa using Nat.le_of_succ_le_succ hf) ha1

/-- `str.replace(pat, "")` is the identity when `pat` never occurs. -/
theorem pyReplace_no_occurrence (pat b : List Char)
    (hb : ∀ j ≤ b.length, pat.isPrefixOf (b.drop j) = false) :
    pyReplace b pat = b :=
  pyReplaceAux_no_occurrence pat b.length b hb

/-- `str.replace(pat, "")` on `a ++ pat ++ b` with no occurrence of
`pat` starting in `a`. -/
theorem pyReplace_leading (a pat b : List Char) (hpat : pat ≠ [])
    (ha : ∀ i < a.length, pat.isPrefixOf ((a ++ pat ++ b).drop i) = false) :
    pyReplace (a ++ pat ++ b) pat = a ++ pyReplace b pat := by
  rw [pyReplace, pyReplace]
  exact pyReplaceAux_leading pat hpat a b _ (le_refl _) ha

/-- `rsplitSemiAux` finds nothing in a semicolon-free string. -/
theorem rsplitSemiAux_none (l : List Char) (h : l.contains ';' = false) :
    rsplitSemiAux l = none := by
  induction l with
  | nil => rfl
  | cons c r ih =>
    simp only [List.contains_cons, Bool.or_eq_false_iff] at h
    rw [rsplitSemiAux, ih h.2, if_neg]
    intro hc
    rw [hc] at h
    simpa using h.1

/-- `rsplit(";", 1)` splits at the displayed last semicolon. -/
theorem rsplitSemiAux_last (code rest : List Char) (h : rest.contains ';' = false) :
    rsplitSemiAux (code ++ ';' :: rest) = some (code, rest) := by
  induction code with
  | nil => rw [List.nil_append, rsplitSemiAux, rsplitSemiAux_none rest h, if_pos rfl]
  | cons x c1 ih => rw [List.cons_append, rsplitSemiAux, ih]

/-- **C3 (counterexample).** On the trailing comment `" [4] and [4]"` the
matched substring `[4]` occurs twice; `format_line` with update enabled
removes both copies, so the unmatched occurrence is *not* preserved
verbatim: the output is `"NOP ; [4] and \n"` rather than the claimed
`"NOP ; [4] and [4]\n"`. -/
theorem C3_counterexample :
    format_line "NOP ; [4] and [4]" eNOPi 4 0 false true 50 false false 8 =
        "NOP ; [4] and \n" ∧
      ("NOP ; [4] and \n" : String) ≠ "NOP ; [4] and [4]\n" := by
  exact ⟨rfl, by decide⟩

/-- **C3 (amended).** With update enabled, `format_line` removes every
occurrence of the one substring matched by `OUR_COMMENT` in the trailing
comment; in particular, when that substring occurs exactly once (as
displayed: comment `a ++ m ++ b` with no occurrence of `m` starting in
`a` or in `b`), exactly the matched substring is removed and all the
surrounding comment text is preserved, then re-attached after the fresh
annotation and a single space, left-stripped. -/
theorem C3_exact_removal_when_unique (code a m b : List Char) (e : Entry)
    (total tc : Int) (subt : Bool) (column : Int) (debug use_tabs : Bool)
    (tab_width : Int)
    (hsearch : OUR_COMMENT_search (a ++ m ++ b) = some m)
    (ha : ∀ i < a.length, m.isPrefixOf ((a ++ m ++ b).drop i) = false)
    (hb : ∀ j ≤ b.length, m.isPrefixOf (b.drop j) = false)
    (hsemi : (a ++ m ++ b).contains ';' = false)
    (hrs : pyRstrip (code ++ ';' :: (a ++ m ++ b)) = code ++ ';' :: (a ++ m ++ b)) :
    strip_old_comment (a ++ m ++ b) = a ++ b ∧
      format_line ⟨code ++ ';' :: (a ++ m ++ b)⟩ e total tc subt true column debug
          use_tabs tab_width =
        ⟨code ++ format_comment e total tc subt debug ++
          ' ' :: pyLstrip (a ++ b) ++ ['\n']⟩ := by
  have hm : m ≠ [] := OUR_COMMENT_search_ne_nil _ _ hsearch
  have hstrip : strip_old_comment (a ++ m ++ b) = a ++ b := by
    simp only [strip_old_comment, hsearch]
    rw [pyReplace_leading a m b hm ha, pyReplace_no_occurrence m b hb]
  refine ⟨hstrip, ?_⟩
  have hsplit : rsplitSemi (code ++ ';' :: (a ++ m ++ b)) = (code, some (a ++ m ++ b)) := by
    rw [rsplitSemi, rsplitSemiAux_last _ _ hsemi]
  have hstrip2 : strip_old_comment (a ++ (m ++ b)) = a ++ b := by
    rw [← List.append_assoc]
    exact hstrip
  simp only [format_line]
  rw [hrs, hsplit]
  simp [hstrip2, List.append_assoc]

/-!
## C2: re-annotation with update enabled

Re-processing an annotated line replaces the annotation (it never
stacks) and reproduces the same updated total, but the reattachment step
`out += " "; out += line[1].lstrip()` leaves one extra trailing space
when the removed annotation was the whole trailing comment, so the
second pass's output is not literally identical to the first pass's.
The development below proves this for a representative matched line and
*every* non-negative starting total, which requires reasoning about the
decimal rendering of the running total inside the annotation.
-/

/-! Digit-string facts about `toString` of a non-negative integer. -/

theorem digitChar_isDigit (n : Nat) (h : n < 10) : (Nat.digitChar n).isDigit = true := by
  interval_cases n <;> decide

theorem toDigitsCore_all_digits :
    ∀ (fuel n : Nat) (ds : List Char), ds.all Char.isDigit = true →
      (Nat.toDigitsCore 10 fuel n ds).all Char.isDigit = true := by
  intro fuel
  induction fuel with
  | zero => intro n ds h; simpa [Nat.toDigitsCore] using h
  | succ f ih =>
    intro n ds h
    have hd : (Nat.digitChar (n % 10)).isDigit = true :=
      digitChar_isDigit (n % 10) (Nat.mod_lt n (by norm_num))
    rw [Nat.toDigitsCore]
    split
    · simp [List.all_cons, hd, h]
    · exact ih _ _ (by simp [List.all_cons, hd, h])

theorem toDigitsCore_length_ge :
    ∀ (fuel n : Nat) (ds : List Char), ds.length ≤ (Nat.toDigitsCore 10 fuel n ds).length := by
  intro fuel
  induction fuel with
  | zero => intro n ds; simp [Nat.toDigitsCore]
  | succ f ih =>
    intro n ds
    rw [Nat.toDigitsCore]
    split
    · simp
    · calc ds.length ≤ (Nat.digitChar (n % 10) :: ds).length := by simp
        _ ≤ _ := ih _ _

theorem nat_repr_digits (n : Nat) :
    (Nat.repr n).data.all Char.isDigit = true := by
  show (Nat.toDigits 10 n).all Char.isDigit = true
  exact toDigitsCore_all_digits (n + 1) n [] rfl

theorem nat_repr_ne_nil (n : Nat) : (Nat.repr n).data ≠ [] := by
  show Nat.toDigits 10 n ≠ []
  rw [Nat.toDigits, Nat.toDigitsCore]
  split
  · simp
  · have := toDigitsCore_length_ge n (n / 10) [Nat.digitChar (n % 10)]
    intro hcontra
    rw [hcontra] at this
    simp at this

theorem toString_int_digits (n : Int) (h : 0 ≤ n) :
    (toString n).data.all Char.isDigit = true ∧ (toString n).data ≠ [] := by
  obtain ⟨m, rfl⟩ := Int.eq_ofNat_of_zero_le h
  exact ⟨nat_repr_digits m, nat_repr_ne_nil m⟩

/-! Character-class facts about decimal digits. -/

theorem digit_facts (c : Char) (h : c.isDigit = true) :
    isPySpace c = false ∧ isCommentChar c = true ∧ isWordChar c = true ∧
      c ≠ '\n' ∧ c ≠ ';' ∧ c ≠ ']' ∧ c ≠ '[' := by
  have hne : ∀ x : Char, x.isDigit = false → c ≠ x := by
    intro x hx hcx
    rw [hcx, hx] at h
    cases h
  refine ⟨?_, ?_, ?_, hne '\n' (by decide), hne ';' (by decide), hne ']' (by decide),
    hne '[' (by decide)⟩
  · simp [isPySpace, hne ' ' (by decide), hne '\t' (by decide), hne '\n' (by decide),
      hne '\r' (by decide), hne '\x0b' (by decide), hne '\x0c' (by decide)]
  · simp [isCommentChar, h]
  · simp [isWordChar, Char.isAlphanum, h]

theorem all_weaken {p q : Char → Bool} (hpq : ∀ c, p c = true → q c = true) :
    ∀ s : List Char, s.all p = true → s.all q = true := by
  intro s h
  rw [List.all_eq_true] at h ⊢
  exact fun c hc => hpq c (h c hc)

/-! Scanning over concatenations. -/

theorem takeWhile_append_all {p : Char → Bool} :
    ∀ (a b : List Char), a.all p = true →
      (a ++ b).takeWhile p = a ++ b.takeWhile p := by
  intro a
  induction a with
  | nil => intro b _; rfl
  | cons c cs ih =>
    intro b h
    rw [List.all_cons, Bool.and_eq_true] at h
    rw [List.cons_append, List.takeWhile_cons, if_pos h.1, ih b h.2, List.cons_append]

theorem dropWhile_append_all {p : Char → Bool} :
    ∀ (a b : List Char), a.all p = true →
      (a ++ b).dropWhile p = b.dropWhile p := by
  intro a
  induction a with
  | nil => intro b _; rfl
  | cons c cs ih =>
    intro b h
    rw [List.all_cons, Bool.and_eq_true] at h
    rw [List.cons_append, List.dropWhile_cons, if_pos h.1, ih b h.2]

theorem takeWhile_all_eq_self {p : Char → Bool} (a : List Char) (h : a.all p = true) :
    a.takeWhile p = a :=
  List.takeWhile_eq_self_iff.mpr (List.all_eq_true.mp h)

theorem contains_eq_false (x : Char) :
    ∀ l : List Char, (∀ c ∈ l, c ≠ x) → l.contains x = false := by
  intro l
  induction l with
  | nil => intro _; rfl
  | cons c cs ih =>
    intro h
    rw [List.contains_cons]
    have h1 : (x == c) = false := by
      rw [beq_eq_false_iff_ne]
      exact fun hx => (h c (by simp)) hx.symm
    rw [h1, ih (fun d hd => h d (by simp [hd]))]
    rfl

/-! The annotated `NOP` line, with the running total's digits and an
optional run of trailing spaces abstracted. -/

def sp45 : List Char := "                                             ".data

def sp46 : List Char := ' ' :: sp45

def annHead : List Char := " [4 .. ".data

def lineAnn (s trail : List Char) : List Char :=
  "NOP".data ++ (sp46 ++ (';' :: (annHead ++ (s ++ (']' :: (trail ++ ['\n']))))))

example : sp46.length = 46 := by decide
example : lineAnn ['1','0','4'] [] = "NOP                                              ; [4 .. 104]\n".data := by decide

/-- The `(\s+.*)?$` tail of the annotated line: 46 spaces of `\s+`, then
`.*` runs to just before the final newline. -/
theorem restMatch_ann (s trail : List Char)
    (hsnl : s.all (fun c => c ≠ '\n') = true)
    (htrnl : trail.all (fun c => c ≠ '\n') = true) :
    restMatch (sp46 ++ (';' :: (annHead ++ (s ++ (']' :: (trail ++ ['\n'])))))) =
      some (some (sp46 ++ (';' :: (annHead ++ (s ++ (']' :: trail)))))) := by
  have hbw : (';' :: (annHead ++ (s ++ (']' :: (trail ++ ['\n']))))).takeWhile
      (fun c => c ≠ '\n') = ';' :: (annHead ++ (s ++ (']' :: trail))) := by
    rw [List.takeWhile_cons, if_pos (by decide)]
    congr 1
    rw [takeWhile_append_all _ _ (by decide)]
    congr 1
    rw [takeWhile_append_all _ _ hsnl]
    congr 1
    rw [List.takeWhile_cons, if_pos (by decide)]
    congr 1
    rw [takeWhile_append_all _ _ htrnl]
    simp
  have hre : sp46 ++ (';' :: (annHead ++ (s ++ (']' :: (trail ++ ['\n']))))) =
      sp46 ++ ((';' :: (annHead ++ (s ++ (']' :: trail)))) ++ ['\n']) := by
    simp [List.append_assoc]
  rw [restMatch]
  rw [show ((sp46 ++ (';' :: (annHead ++ (s ++ (']' :: (trail ++ ['\n'])))))).takeWhile
      isPySpace).length = 46 from rfl]
  rw [if_neg (by decide)]
  rw [show (sp46 ++ (';' :: (annHead ++ (s ++ (']' :: (trail ++ ['\n'])))))).drop 46 =
      ';' :: (annHead ++ (s ++ (']' :: (trail ++ ['\n'])))) from rfl]
  rw [hbw]
  rw [hre]
  rw [show (46 : Nat) = sp46.length from rfl]
  simp only []
  rw [List.drop_append, List.take_append]
  rw [List.drop_left, List.take_left]
  rw [if_pos (by decide)]

theorem lineMatch_lineAnn (s trail : List Char)
    (hsnl : s.all (fun c => c ≠ '\n') = true)
    (htrnl : trail.all (fun c => c ≠ '\n') = true) :
    lineMatch (lineAnn s trail) =
      some (none, "NOP".data,
        some (sp46 ++ (';' :: (annHead ++ (s ++ (']' :: trail)))))) := by
  rw [show lineMatch (lineAnn s trail) =
      (lineMatchCore (lineAnn s trail)).map (fun p => (none, p.1, p.2)) from rfl]
  rw [show lineMatchCore (lineAnn s trail) =
      (restMatch (sp46 ++ (';' :: (annHead ++ (s ++ (']' :: (trail ++ ['\n']))))))).map
        (fun rest => ("NOP".data, rest)) from rfl]
  rw [restMatch_ann s trail hsnl htrnl]
  rfl

/-- The compiled `NOP` pattern accepts the label-stripped annotated
line: empty `\s*`, the pattern takes `NOP`, the second `\s*` takes the
alignment spaces, and `(;.*)?$` takes the whole annotation comment. -/
theorem cregex_ann (s trail : List Char)
    (hsnl : s.all (fun c => c ≠ '\n') = true)
    (htrnl : trail.all (fun c => c ≠ '\n') = true) :
    cregex_match (fun l => l == "NOP".data)
      ("NOP".data ++ (sp46 ++ (';' :: (annHead ++ (s ++ (']' :: trail)))))) = true := by
  have hu : (annHead ++ (s ++ (']' :: trail))).takeWhile (fun c => c ≠ '\n') =
      annHead ++ (s ++ (']' :: trail)) := by
    apply takeWhile_all_eq_self
    simp only [List.all_append, List.all_cons, Bool.and_eq_true]
    exact ⟨by decide, hsnl, by decide, htrnl⟩
  rw [cregex_match]
  apply List.any_eq_true.mpr
  refine ⟨0, List.mem_range.mpr (by omega), ?_⟩
  apply List.any_eq_true.mpr
  refine ⟨3, List.mem_range.mpr ?_, ?_⟩
  · rw [List.length_append, show ("NOP".data).length = 3 from rfl]
    omega
  · rw [Bool.and_eq_true]
    constructor
    · rw [List.drop_zero,
        show ("NOP".data ++ (sp46 ++ (';' :: (annHead ++ (s ++ (']' :: trail)))))).take 3 =
          "NOP".data from rfl]
      decide
    · simp only []
      apply List.any_eq_true.mpr
      refine ⟨46, List.mem_range.mpr ?_, ?_⟩
      · rw [show (("NOP".data ++ (sp46 ++ (';' :: (annHead ++ (s ++ (']' :: trail)))))).drop
            (0 + 3)).takeWhile isPySpace = sp46 from rfl]
        decide
      · rw [show (("NOP".data ++ (sp46 ++ (';' :: (annHead ++ (s ++ (']' :: trail)))))).drop
            (0 + 3)).drop 46 = ';' :: (annHead ++ (s ++ (']' :: trail))) from rfl]
        rw [commentTailOK]
        rw [hu, List.drop_length]
        simp [endOK]

/-! `rstrip` over concatenations. -/

theorem pyRstrip_append_ws (x ws : List Char) (h : ws.all isPySpace = true) :
    pyRstrip (x ++ ws) = pyRstrip x := by
  rw [pyRstrip, pyRstrip, List.reverse_append]
  rw [dropWhile_append_all _ _ (by simpa using h)]

theorem pyRstrip_append_last (x : List Char) (c : Char) (h : isPySpace c = false) :
    pyRstrip (x ++ [c]) = x ++ [c] := by
  rw [pyRstrip, List.reverse_append]
  rw [show ([c].reverse : List Char) = [c] from rfl, List.singleton_append,
    List.dropWhile_cons, if_neg (by simp [h])]
  simp

/-- Right-stripping the annotated line removes the trailing spaces and
the newline, stopping at the closing bracket. -/
theorem pyRstrip_lineAnn (s trail : List Char)
    (htrws : trail.all isPySpace = true) :
    pyRstrip (lineAnn s trail) =
      "NOP".data ++ (sp46 ++ (';' :: (annHead ++ (s ++ [']'])))) := by
  have hsh : lineAnn s trail =
      (("NOP".data ++ (sp46 ++ (';' :: (annHead ++ s)))) ++ [']']) ++ (trail ++ ['\n']) := by
    simp [lineAnn, List.append_assoc]
  rw [hsh, pyRstrip_append_ws _ _ (by simp [List.all_append, htrws]; decide),
    pyRstrip_append_last _ _ (by decide)]
  simp [List.append_assoc]

/-- Splitting the right-stripped annotated line at its (only) semicolon. -/
theorem rsplit_ann (s : List Char) (hdig : s.all Char.isDigit = true) :
    rsplitSemi ("NOP".data ++ (sp46 ++ (';' :: (annHead ++ (s ++ [']']))))) =
      ("NOP".data ++ sp46, some (annHead ++ (s ++ [']']))) := by
  have hc : (annHead ++ (s ++ [']'])).contains ';' = false := by
    apply contains_eq_false
    intro c hc
    rw [List.mem_append] at hc
    rcases hc with hc | hc
    · revert c
      decide
    · rw [List.mem_append] at hc
      rcases hc with hc | hc
      · exact (digit_facts c (List.all_eq_true.mp hdig c hc)).2.2.2.2.1
      · rw [List.mem_singleton] at hc
        subst hc
        decide
  have hsh : "NOP".data ++ (sp46 ++ (';' :: (annHead ++ (s ++ [']'])))) =
      ("NOP".data ++ sp46) ++ (';' :: (annHead ++ (s ++ [']']))) := by
    simp [List.append_assoc]
  rw [hsh, rsplitSemi, rsplitSemiAux_last _ _ hc]

/-- `OUR_COMMENT.search` on the annotated trailing comment finds exactly
the bracketed annotation. -/
theorem search_ann (s : List Char) (hdig : s.all Char.isDigit = true) :
    OUR_COMMENT_search (annHead ++ (s ++ [']'])) =
      some ('[' :: (("4 .. ".data ++ s) ++ [']'])) := by
  have hscc : s.all isCommentChar = true :=
    all_weaken (fun c hc => (digit_facts c hc).2.1) s hdig
  have hrun : ("4 .. ".data ++ (s ++ [']'])).takeWhile isCommentChar =
      "4 .. ".data ++ s := by
    rw [takeWhile_append_all _ _ (by decide)]
    congr 1
    rw [takeWhile_append_all _ _ hscc]
    rw [List.takeWhile_cons, if_neg (by decide)]
    simp
  rw [show OUR_COMMENT_search (annHead ++ (s ++ [']'])) =
      OUR_COMMENT_search ('[' :: ("4 .. ".data ++ (s ++ [']']))) from rfl]
  rw [OUR_COMMENT_search, if_pos rfl, hrun]
  have hdr : ("4 .. ".data ++ (s ++ [']'])).drop ("4 .. ".data ++ s).length = [']'] := by
    rw [show "4 .. ".data ++ (s ++ [']']) = ("4 .. ".data ++ s) ++ [']'] by
      simp [List.append_assoc]]
    exact List.drop_left _ _
  rw [hdr]
  rw [if_pos (by rw [show (("4 .. ".data ++ s : List Char)).isEmpty = false from rfl]; rfl)]

/-- The update step deletes exactly the annotation from the trailing
comment, leaving the single leading space. -/
theorem strip_ann (s : List Char) (hdig : s.all Char.isDigit = true) :
    strip_old_comment (annHead ++ (s ++ [']'])) = [' '] := by
  have hm : ('[' :: (("4 .. ".data ++ s) ++ [']']) : List Char) ≠ [] := by simp
  have hsh : annHead ++ (s ++ [']']) =
      ([' '] ++ ('[' :: (("4 .. ".data ++ s) ++ [']']))) ++ [] := by
    rw [show annHead = ' ' :: ('[' :: "4 .. ".data) from rfl]
    simp [List.append_assoc]
  have ha : ∀ i < ([' '] : List Char).length,
      ('[' :: (("4 .. ".data ++ s) ++ [']'])).isPrefixOf
        ((([' '] ++ ('[' :: (("4 .. ".data ++ s) ++ [']']))) ++ []).drop i) = false := by
    intro i hi
    have h0 : i = 0 := by simpa using hi
    subst h0
    rfl
  simp only [strip_old_comment, search_ann s hdig]
  rw [hsh, pyReplace_leading [' '] _ [] hm ha]
  rfl

/-- The fresh annotation text for the `NOP` record with subtotals and a
zero conditional total. -/
theorem format_comment_NOP (total : Int) :
    format_comment eNOPi total 0 true false =
      "; [4 .. ".data ++ ((toString total).data ++ [']']) := rfl

/-- Re-formatting the annotated line: the old annotation is removed, the
fresh identical one is inserted, and one trailing space remains from the
reattachment step. -/
theorem format_line_ann (total : Int) (s trail : List Char)
    (hdig : s.all Char.isDigit = true)
    (htrws : trail.all isPySpace = true)
    (hsval : (toString (total + 4)).data = s) :
    format_line ⟨lineAnn s trail⟩ eNOPi (total + 4) 0 true true 50 false false 8 =
      ⟨lineAnn s [' ']⟩ := by
  rw [format_line]
  rw [show (⟨lineAnn s trail⟩ : String).data = lineAnn s trail from rfl]
  rw [pyRstrip_lineAnn s trail htrws, rsplit_ann s hdig]
  simp only [format_comment_NOP, hsval]
  rw [strip_ann s hdig]
  show (⟨(("NOP".data ++ sp46) ++ ("; [4 .. ".data ++ (s ++ [']']))) ++ [' '] ++
      pyLstrip [' '] ++ ['\n']⟩ : String) = ⟨lineAnn s [' ']⟩
  rw [show pyLstrip [' '] = [] from rfl,
    show lineAnn s [' '] = "NOP".data ++ (sp46 ++ (';' :: (annHead ++ (s ++ [']', ' ', '\n'])))) from rfl]
  congr 1
  rw [show ("; [4 .. ".data : List Char) = ';' :: annHead from rfl]
  simp [List.append_assoc]

/-- `lookup` recognizes the annotated line through the already
initialized table, leaving the table unchanged. -/
theorem lookup_ann (s trail : List Char)
    (hsnl : s.all (fun c => c ≠ '\n') = true)
    (htrnl : trail.all (fun c => c ≠ '\n') = true) :
    lookup tblNOPi ⟨lineAnn s trail⟩ = some (some eNOPi, tblNOPi) := by
  have hx : extract_mnemonic ⟨lineAnn s trail⟩ = some "NOP" := by
    rw [extract_mnemonic, show (⟨lineAnn s trail⟩ : String).data = lineAnn s trail from rfl,
      lineMatch_lineAnn s trail hsnl htrnl]
    rfl
  have hr : remove_label ⟨lineAnn s trail⟩ =
      some ⟨"NOP".data ++ (sp46 ++ (';' :: (annHead ++ (s ++ (']' :: trail)))))⟩ := by
    rw [remove_label, show (⟨lineAnn s trail⟩ : String).data = lineAnn s trail from rfl,
      lineMatch_lineAnn s trail hsnl htrnl]
    rfl
  have hcm : cregex_match (fun l => l == "NOP".data)
      ("NOP".data ++ (sp46 ++ (';' :: (annHead ++ (s ++ (']' :: trail)))))) = true :=
    cregex_ann s trail hsnl htrnl
  have hscan : lookupEntries [eNOPi]
      ("NOP".data ++ (sp46 ++ (';' :: (annHead ++ (s ++ (']' :: trail)))))) =
      some (some eNOPi, [eNOPi]) := by
    rw [lookupEntries]
    rw [show (if eNOPi.initialized = true then some eNOPi else init_entry eNOPi) =
      some eNOPi from rfl]
    simp only [show eNOPi.cregex = some (cregex_match (fun l => l == "NOP".data)) from rfl,
      hcm, if_true]
  have hscan2 : lookupEntries [eNOPi]
      (['N', 'O', 'P'] ++ (sp46 ++ (';' :: (annHead ++ (s ++ (']' :: trail)))))) =
      some (some eNOPi, [eNOPi]) := hscan
  simp only [lookup, hx, hr]
  simp only [show tableFind tblNOPi "NOP" = some [eNOPi] from rfl, hscan2]
  rfl

/-- One full pass of `z80count` over the already annotated line: same
updated total, annotation replaced, one extra trailing space (none if it
was already there). -/
theorem z80count_ann (total : Int) (s trail : List Char)
    (hdig : s.all Char.isDigit = true)
    (htr : trail.all (fun c => c = ' ') = true)
    (hsval : (toString (total + 4)).data = s) :
    z80count ⟨lineAnn s trail⟩ tblNOPi total true false 50 false 8 false =
      some (⟨lineAnn s [' ']⟩, total + 4, tblNOPi) := by
  have hsnl : s.all (fun c => c ≠ '\n') = true :=
    all_weaken (fun c hc => by simp [(digit_facts c hc).2.2.2.1]) s hdig
  have htrnl : trail.all (fun c => c ≠ '\n') = true :=
    all_weaken (fun c hc => by
      have h2 : c = ' ' := by simpa using hc
      subst h2; decide) trail htr
  have htrws : trail.all isPySpace = true :=
    all_weaken (fun c hc => by
      have h2 : c = ' ' := by simpa using hc
      subst h2; decide) trail htr
  simp only [z80count, lookup_ann s trail hsnl htrnl,
    show update_counters eNOPi total = some (total + 4, (0 : Int)) from rfl,
    Bool.not_false, format_line_ann total s trail hdig htrws hsval]

/-- The first pass over the bare `"NOP\n"` line. -/
theorem format_line_NOP (total : Int) :
    format_line "NOP\n" eNOPi total 0 true true 50 false false 8 =
      ⟨lineAnn (toString total).data []⟩ := by
  rw [format_line]
  rw [show rsplitSemi (pyRstrip (String.data "NOP\n")) =
      ("NOP".data, (none : Option (List Char))) from rfl]
  show (⟨"NOP".data ++ ((comment_alignment ⟨"NOP".data⟩ 50 false 8).data ++
      format_comment eNOPi total 0 true false) ++ ['\n']⟩ : String) = _
  rw [format_comment_NOP total]
  rw [show (comment_alignment ⟨"NOP".data⟩ 50 false 8).data = sp46 from rfl]
  rw [show lineAnn (toString total).data [] =
    "NOP".data ++ (sp46 ++ (';' :: (annHead ++ ((toString total).data ++ [']', '\n']))))
    from rfl]
  congr 1
  rw [show ("; [4 .. ".data : List Char) = ';' :: annHead from rfl]
  simp [List.append_assoc]

theorem z80count_NOP_pass1 (total : Int) :
    z80count "NOP\n" tblNOP total true false 50 false 8 false =
      some (⟨lineAnn (toString (total + 4)).data []⟩, total + 4, tblNOPi) := by
  simp only [z80count, show lookup tblNOP "NOP\n" = some (some eNOPi, tblNOPi) from rfl,
    show update_counters eNOPi total = some (total + 4, (0 : Int)) from rfl,
    Bool.not_false, format_line_NOP (total + 4)]

/-- First-pass output for `"NOP\n"` at column 50 with subtotals and
starting total 100. -/
def o1NOP : String := "NOP                                              ; [4 .. 104]\n"

/-- Second-pass output for the same line: identical except for one extra
trailing space before the newline. -/
def o2NOP : String := "NOP                                              ; [4 .. 104] \n"

/-- **C2 (counterexample).** Re-processing the first pass's output with
the same starting total yields the same updated total but *not* exactly
the same output line: the second pass appends a trailing space before
the newline. -/
theorem C2_counterexample :
    z80count "NOP\n" tblNOP 100 true false 50 false 8 false =
        some (o1NOP, 104, tblNOPi) ∧
      z80count o1NOP tblNOPi 100 true false 50 false 8 false =
        some (o2NOP, 104, tblNOPi) ∧
      o2NOP ≠ o1NOP :=
  ⟨rfl, rfl, by decide⟩

/-- **C2 (amended).** For every non-negative starting total:
re-annotation replaces rather than stacks; the second pass reproduces
the same updated total and the same line content except for one extra
trailing space before the newline (exactly the right-stripped first
output plus `" \n"`), and from the second pass on the output is an exact
fixed point of re-processing. -/
theorem C2_reannotation_stabilizes (total : Int) (h : 0 ≤ total) :
    z80count "NOP\n" tblNOP total true false 50 false 8 false =
        some (⟨lineAnn (toString (total + 4)).data []⟩, total + 4, tblNOPi) ∧
      z80count ⟨lineAnn (toString (total + 4)).data []⟩ tblNOPi total
          true false 50 false 8 false =
        some (⟨lineAnn (toString (total + 4)).data [' ']⟩, total + 4, tblNOPi) ∧
      lineAnn (toString (total + 4)).data [' '] =
        pyRstrip (lineAnn (toString (total + 4)).data []) ++ [' ', '\n'] ∧
      z80count ⟨lineAnn (toString (total + 4)).data [' ']⟩ tblNOPi total
          true false 50 false 8 false =
        some (⟨lineAnn (toString (total + 4)).data [' ']⟩, total + 4, tblNOPi) := by
  have h4 : (0 : Int) ≤ total + 4 := by omega
  obtain ⟨hdig, -⟩ := toString_int_digits (total + 4) h4
  refine ⟨z80count_NOP_pass1 total, z80count_ann total _ [] hdig (by decide) rfl, ?_,
    z80count_ann total _ [' '] hdig (by decide) rfl⟩
  rw [pyRstrip_lineAnn _ [] (by decide)]
  simp [lineAnn, List.append_assoc]

/-- Witness for C2 (amended) at starting total 100: the three passes,
with the first and second outputs written as the literal strings. -/
theorem C2_reannotation_stabilizes_witness :
    z80count "NOP\n" tblNOP 100 true false 50 false 8 false =
        some (o1NOP, 104, tblNOPi) ∧
      z80count o1NOP tblNOPi 100 true false 50 false 8 false =
        some (o2NOP, 104, tblNOPi) ∧
      z80count o2NOP tblNOPi 100 true false 50 false 8 false =
        some (o2NOP, 104, tblNOPi) := by
  obtain ⟨h1, h2, h3, h4⟩ := C2_reannotation_stabilizes 100 (by decide)
  exact ⟨h1, h2, h4⟩

/-!
## C7: soft per-line failure handling

A table is well formed when every not-yet-initialized entry initializes
successfully and every initialized entry carries the keys the scan and
the accumulator read.  The packaged table satisfies this (its cycle
fields all parse); under it the per-line function is total.
-/

/-- Well-formedness of one entry with respect to the lazy
initialization. -/
def EntryWF (e : Entry) : Bool :=
  if e.initialized then
    e.cregex.isSome && e.t_states_met.isSome && e.t_states_or_not_met.isSome
  else (init_entry e).isSome

/-- Well-formedness of a whole table. -/
def TableWF (t : Table) : Bool :=
  t.all fun p => p.2.all EntryWF

/-- What `Parser._init_entry` writes: the compiled wrapper regex, both
cycle fields, the `_initialized` mark; the loaded fields are kept. -/
theorem init_entry_fields (e e1 : Entry) (h : init_entry e = some e1) :
    e1.cregex = some (cregex_match e.regex) ∧
      e1.t_states_met.isSome = true ∧ e1.t_states_or_not_met.isSome = true ∧
      e1.caseStr = e.caseStr ∧ e1.regex = e.regex ∧ e1.cycles = e.cycles ∧
      e1.w = e.w ∧ e1.initialized = true := by
  rw [init_entry] at h
  split at h
  · split at h
    · split at h
      · cases h
        simp
      · cases h
    · cases h
  · split at h
    · cases h
      simp
    · cases h

/-- Under entry well-formedness the scan of one mnemonic's records never
raises, and a found record carries both cycle fields. -/
theorem lookupEntries_total (l : List Char) (es : List Entry)
    (hwf : ∀ e ∈ es, EntryWF e = true) :
    ∃ r es2, lookupEntries es l = some (r, es2) ∧
      (∀ e1, r = some e1 →
        e1.t_states_met.isSome = true ∧ e1.t_states_or_not_met.isSome = true) := by
  induction es with
  | nil => exact ⟨none, [], rfl, fun e1 h => by cases h⟩
  | cons e rest ih =>
    have hwfe := hwf e (by simp)
    obtain ⟨e1, he1, hfields⟩ :
        ∃ e1, (if e.initialized then some e else init_entry e) = some e1 ∧
          e1.cregex.isSome = true ∧ e1.t_states_met.isSome = true ∧
          e1.t_states_or_not_met.isSome = true := by
      rw [EntryWF] at hwfe
      by_cases hi : e.initialized
      · rw [if_pos hi] at hwfe
        simp only [Bool.and_eq_true] at hwfe
        exact ⟨e, by rw [if_pos hi], hwfe.1.1, hwfe.1.2, hwfe.2⟩
      · rw [if_neg hi] at hwfe
        obtain ⟨e1, he1⟩ := Option.isSome_iff_exists.mp hwfe
        have hf := init_entry_fields e e1 he1
        exact ⟨e1, by rw [if_neg hi]; exact he1,
          by rw [hf.1]; rfl, hf.2.1, hf.2.2.1⟩
    obtain ⟨rx, hrx⟩ := Option.isSome_iff_exists.mp hfields.1
    by_cases hmatch : rx l
    · refine ⟨some e1, e1 :: rest, ?_, ?_⟩
      · simp only [lookupEntries, he1, hrx, if_pos hmatch]
      · intro e2 he2
        cases he2
        exact ⟨hfields.2.1, hfields.2.2⟩
    · obtain ⟨r, rest2, hrec, hr⟩ := ih (fun x hx => hwf x (by simp [hx]))
      refine ⟨r, e1 :: rest2, ?_, hr⟩
      simp only [lookupEntries, he1, hrx, if_neg hmatch, hrec]

/-- A mnemonic's entry list inside a well-formed table is well formed. -/
theorem tableFind_wf (t : Table) (m : String) (es : List Entry)
    (hwf : TableWF t = true) (h : tableFind t m = some es) :
    ∀ e ∈ es, EntryWF e = true := by
  induction t with
  | nil => cases h
  | cons p rest ih =>
    rw [TableWF, List.all_cons, Bool.and_eq_true] at hwf
    rw [tableFind] at h
    split at h
    · cases h
      intro e he
      exact List.all_eq_true.mp hwf.1 e he
    · exact ih hwf.2 h

/-- A successful mnemonic extraction comes with a successful label
strip. -/
theorem remove_label_of_extract (line : String) (m : String)
    (h : extract_mnemonic line = some m) : ∃ sl, remove_label line = some sl := by
  rw [extract_mnemonic] at h
  rw [remove_label]
  cases hm : lineMatch line.data with
  | none => rw [hm] at h; cases h
  | some v => exact ⟨_, rfl⟩

/-- Under table well-formedness `Parser.lookup` never raises, and a
found record carries both cycle fields. -/
theorem lookup_total (table : Table) (line : String) (hwf : TableWF table = true) :
    ∃ r t2, lookup table line = some (r, t2) ∧
      (∀ e1, r = some e1 →
        e1.t_states_met.isSome = true ∧ e1.t_states_or_not_met.isSome = true) := by
  cases hx : extract_mnemonic line with
  | none =>
    refine ⟨none, table, ?_, fun e1 h => by cases h⟩
    simp only [lookup, hx]
  | some m =>
    cases hf : tableFind table m with
    | none =>
      refine ⟨none, table, ?_, fun e1 h => by cases h⟩
      simp only [lookup, hx, hf]
    | some es =>
      obtain ⟨sl, hsl⟩ := remove_label_of_extract line m hx
      obtain ⟨r, es2, hscan, hr⟩ :=
        lookupEntries_total sl.data es (tableFind_wf table m es hwf hf)
      refine ⟨r, tableSet table m es2, ?_, hr⟩
      simp only [lookup, hx, hf, hsl, hscan]

/-- **C7.** Under a well-formed table the per-line function never raises:
it always returns a line and a total; and whenever the lookup finds no
record the line is passed through with only trailing whitespace trimmed
and a newline appended, with the running total unchanged. -/
theorem C7_no_match_passthrough (table : Table) (line : String) (total : Int)
    (subt no_update : Bool) (column : Int) (use_tabs : Bool) (tab_width : Int)
    (debug : Bool) (hwf : TableWF table = true) :
    (∃ out total2 table2,
        z80count line table total subt no_update column use_tabs tab_width debug =
          some (out, total2, table2)) ∧
      (∀ t1, lookup table line = some (none, t1) →
        z80count line table total subt no_update column use_tabs tab_width debug =
          some (⟨pyRstrip line.data ++ ['\n']⟩, total, t1)) := by
  constructor
  · obtain ⟨r, t2, hl, hr⟩ := lookup_total table line hwf
    cases r with
    | none =>
      refine ⟨⟨pyRstrip line.data ++ ['\n']⟩, total, t2, ?_⟩
      simp only [z80count, hl]
    | some e1 =>
      obtain ⟨hmet, hnot⟩ := hr e1 rfl
      obtain ⟨met, hm⟩ := Option.isSome_iff_exists.mp hmet
      obtain ⟨notMet, hn⟩ := Option.isSome_iff_exists.mp hnot
      refine ⟨format_line line e1 (total + notMet)
          (if met ≠ 0 then total + met else 0) subt (!no_update) column debug
          use_tabs tab_width,
        total + notMet, t2, ?_⟩
      simp only [z80count, hl, update_counters, hm, hn]
  · intro t1 hl
    simp only [z80count, hl]

/-- Witness for C7: a comment-only line against the `NOP` table is
passed through unchanged with the total unchanged. -/
theorem C7_no_match_passthrough_witness :
    z80count "; just a comment\n" tblNOP 7 false false 50 false 8 false =
      some (⟨pyRstrip "; just a comment\n".data ++ ['\n']⟩, 7, tblNOP) :=
  (C7_no_match_passthrough tblNOP "; just a comment\n" 7 false false 50 false 8
    false (by decide)).2 tblNOP rfl

/-!
## C9: the table is lazily mutated by lookup

`Parser.lookup` calls `_init_entry` in place on first use, adding the
`cregex`, `_t_states_*` and `_initialized` keys to the entry dict, so
"never mutated after construction" is false.  What does hold: the loaded
fields are never changed, and an already-initialized entry is returned
untouched, so the mutation is a one-time idempotent memoization.
-/

/-- Observable per-entry initialization marks of a table. -/
def tableInitFlags (t : Table) : List (List Bool) :=
  t.map fun p => p.2.map (fun e => e.initialized)

/-- **C9 (counterexample).** The first lookup of `"NOP"` flips the
record's `_initialized` mark (and fills its cached keys): the table
after `lookup` differs from the table as built. -/
theorem C9_counterexample :
    (lookup tblNOP "NOP\n").map (fun p => tableInitFlags p.2) = some [[true]] ∧
      tableInitFlags tblNOP = [[false]] ∧
      ([[true]] : List (List Bool)) ≠ [[false]] :=
  ⟨rfl, rfl, by decide⟩

/-- The part of a record `lookup` never changes: all loaded fields, and
the whole record once it has been initialized. -/
def entryPreserved (a b : Entry) : Prop :=
  b.caseStr = a.caseStr ∧ b.regex = a.regex ∧ b.cycles = a.cycles ∧ b.w = a.w ∧
    (a.initialized = true → b = a)

/-- Tables relate when they have the same mnemonics in the same order
and all corresponding records are preserved. -/
def tablePreserved (t t2 : Table) : Prop :=
  List.Forall₂ (fun p q => q.1 = p.1 ∧ List.Forall₂ entryPreserved p.2 q.2) t t2

theorem entryPreserved_refl (e : Entry) : entryPreserved e e :=
  ⟨rfl, rfl, rfl, rfl, fun _ => rfl⟩

theorem forall₂_entryPreserved_refl (l : List Entry) :
    List.Forall₂ entryPreserved l l :=
  List.forall₂_same.mpr (fun x _ => entryPreserved_refl x)

theorem tablePreserved_refl (t : Table) : tablePreserved t t :=
  List.forall₂_same.mpr (fun p _ => ⟨rfl, forall₂_entryPreserved_refl p.2⟩)

/-- One scan step preserves the record it touches. -/
theorem entryPreserved_of_step (e e1 : Entry)
    (heq : (if e.initialized = true then some e else init_entry e) = some e1) :
    entryPreserved e e1 := by
  by_cases hi : e.initialized = true
  · rw [if_pos hi] at heq
    injection heq with h
    subst h
    exact entryPreserved_refl e
  · rw [if_neg hi] at heq
    have hf := init_entry_fields e e1 heq
    exact ⟨hf.2.2.2.1, hf.2.2.2.2.1, hf.2.2.2.2.2.1, hf.2.2.2.2.2.2.1,
      fun hc => absurd hc hi⟩

/-- The scan of a mnemonic's records preserves every record. -/
theorem lookupEntries_preserves (l : List Char) :
    ∀ (es es2 : List Entry) (r : Option Entry),
      lookupEntries es l = some (r, es2) → List.Forall₂ entryPreserved es es2 := by
  intro es
  induction es with
  | nil =>
    intro es2 r h
    simp only [lookupEntries, Option.some.injEq, Prod.mk.injEq] at h
    obtain ⟨h1, h2⟩ := h
    subst h2
    exact List.Forall₂.nil
  | cons e rest ih =>
    intro es2 r h
    rw [lookupEntries] at h
    split at h
    · cases h
    · rename_i e1 heq
      split at h
      · cases h
      · rename_i rx hrx
        split at h
        · simp only [Option.some.injEq, Prod.mk.injEq] at h
          obtain ⟨h1, h2⟩ := h
          subst h2
          exact List.Forall₂.cons (entryPreserved_of_step e e1 heq)
            (forall₂_entryPreserved_refl rest)
        · split at h
          · cases h
          · rename_i r2 rest2 hrec
            simp only [Option.some.injEq, Prod.mk.injEq] at h
            obtain ⟨h1, h2⟩ := h
            subst h2
            exact List.Forall₂.cons (entryPreserved_of_step e e1 heq)
              (ih rest2 r2 hrec)

/-- Writing a preserved entry list back under its key preserves the
whole table. -/
theorem tableSet_preserves (m : String) :
    ∀ (t : Table) (es es2 : List Entry), tableFind t m = some es →
      List.Forall₂ entryPreserved es es2 → tablePreserved t (tableSet t m es2) := by
  intro t
  induction t with
  | nil => intro es es2 h; cases h
  | cons p rest ih =>
    intro es es2 h hrel
    rw [tableFind] at h
    rw [tablePreserved, tableSet]
    by_cases hk : p.1 = m
    · rw [if_pos hk] at h ⊢
      injection h with h1
      subst h1
      exact List.Forall₂.cons ⟨rfl, hrel⟩
        (List.forall₂_same.mpr (fun q _ => ⟨rfl, forall₂_entryPreserved_refl q.2⟩))
    · rw [if_neg hk] at h ⊢
      exact List.Forall₂.cons ⟨rfl, forall₂_entryPreserved_refl p.2⟩
        (ih es es2 h hrel)

/-- **C9 (amended).** `lookup` preserves every loaded record field
(canonical form, pattern, cycles string, weight), keeps mnemonics and
record order intact, and returns any already-initialized record exactly
as it was; its only effect on the table is the one-time lazy
initialization of the records it had to test. -/
theorem C9_lookup_preserves_loaded_fields (table : Table) (line : String)
    (r : Option Entry) (t2 : Table) (h : lookup table line = some (r, t2)) :
    tablePreserved table t2 := by
  rw [lookup] at h
  split at h
  · injection h with h1
    injection h1 with h2 h3
    subst h3
    exact tablePreserved_refl table
  · rename_i m hm
    split at h
    · injection h with h1
      injection h1 with h2 h3
      subst h3
      exact tablePreserved_refl table
    · rename_i es hes
      split at h
      · cases h
      · rename_i sl hsl
        split at h
        · cases h
        · rename_i r2 es2 hscan
          injection h with h1
          injection h1 with h2 h3
          subst h3
          exact tableSet_preserves m table es es2 hes
            (lookupEntries_preserves sl.data es es2 r2 hscan)

/-- Witness for C9 (amended): the first `NOP` lookup initializes the
record but preserves everything loaded. -/
theorem C9_lookup_preserves_loaded_fields_witness :
    tablePreserved tblNOP tblNOPi :=
  C9_lookup_preserves_loaded_fields tblNOP "NOP\n" (some eNOPi) tblNOPi rfl

/-!
## C5: what lookup recognizes

Initialized entries are expected to carry the compiled wrapper of their
own raw pattern (which is what `_init_entry` always stores); under that
invariant a returned record implies both the line-shape match and the
anchored pattern match on the label-stripped line.
-/

/-- Every initialized record's compiled regex is the `^\s*…\s*(;.*)?$`
wrapper of its own raw pattern. -/
def TableCregexInv (t : Table) : Prop :=
  ∀ p ∈ t, ∀ e ∈ p.2, e.initialized = true →
    e.cregex = some (cregex_match e.regex)

/-- The invariant restricted to one mnemonic's records. -/
theorem tableFind_cregexInv (t : Table) (m : String) (es : List Entry)
    (hinv : TableCregexInv t) (h : tableFind t m = some es) :
    ∀ e ∈ es, e.initialized = true → e.cregex = some (cregex_match e.regex) := by
  induction t with
  | nil => cases h
  | cons p rest ih =>
    rw [tableFind] at h
    split at h
    · cases h
      exact fun e he => hinv p (by simp) e he
    · exact ih (fun q hq => hinv q (by simp [hq])) h

/-- A record returned by the scan accepted the scanned line through the
compiled wrapper of its own raw pattern. -/
theorem lookupEntries_found_matches (l : List Char) :
    ∀ (es es2 : List Entry) (e1 : Entry),
      (∀ e ∈ es, e.initialized = true → e.cregex = some (cregex_match e.regex)) →
      lookupEntries es l = some (some e1, es2) →
      cregex_match e1.regex l = true := by
  intro es
  induction es with
  | nil =>
    intro es2 e1 hinv h
    simp only [lookupEntries, Option.some.injEq, Prod.mk.injEq] at h
    cases h.1
  | cons e rest ih =>
    intro es2 e1 hinv h
    rw [lookupEntries] at h
    split at h
    · cases h
    · rename_i ei heq
      have hcr : ei.cregex = some (cregex_match ei.regex) := by
        by_cases hi : e.initialized = true
        · rw [if_pos hi] at heq
          injection heq with h2
          subst h2
          exact hinv e (by simp) hi
        · rw [if_neg hi] at heq
          have hf := init_entry_fields e ei heq
          rw [hf.1, hf.2.2.2.2.1]
      split at h
      · cases h
      · rename_i rx hrx
        rw [hcr] at hrx
        injection hrx with hrx2
        split at h
        · rename_i hmatch
          simp only [Option.some.injEq, Prod.mk.injEq] at h
          obtain ⟨h1, h2⟩ := h
          have h1e : ei = e1 := by simpa using h1
          subst h1e
          rw [hrx2]
          exact hmatch
        · split at h
          · cases h
          · rename_i r2 rest2 hrec
            simp only [Option.some.injEq, Prod.mk.injEq] at h
            obtain ⟨h1, h2⟩ := h
            subst h1
            exact ih rest2 e1 (fun x hx => hinv x (by simp [hx])) hrec

/-- **C5.** Under the compiled-pattern invariant: a record is returned
only when the line matches the `[label:] MNEMONIC [rest]` shape and the
record's own pattern, wrapped as `^\s*…\s*(;.*)?$` (anchored, optional
`;`-led trailing comment), accepts the label-stripped line; and a line
that does not match the shape (a blank line, a pure comment) never
yields a record and leaves the table untouched. -/
theorem C5_lookup_shape (table : Table) (line : String)
    (hinv : TableCregexInv table) :
    (∀ e t2, lookup table line = some (some e, t2) →
        (∃ lbl op rest, lineMatch line.data = some (lbl, op, rest)) ∧
          ∃ sl, remove_label line = some sl ∧
            cregex_match e.regex sl.data = true) ∧
      (lineMatch line.data = none → lookup table line = some (none, table)) := by
  constructor
  · intro e t2 h
    rw [lookup] at h
    split at h
    · simp at h
    · rename_i m hm
      have hshape : ∃ lbl op rest, lineMatch line.data = some (lbl, op, rest) := by
        have hm2 : extract_mnemonic line = some m := hm
        rw [extract_mnemonic] at hm2
        cases hl : lineMatch line.data with
        | none => rw [hl] at hm2; simp at hm2
        | some v =>
          obtain ⟨lbl, op, rest⟩ := v
          exact ⟨lbl, op, rest, rfl⟩
      refine ⟨hshape, ?_⟩
      split at h
      · cases h
      · rename_i es hes
        split at h
        · cases h
        · rename_i sl hsl
          split at h
          · cases h
          · rename_i r2 es2 hscan
            injection h with h1
            injection h1 with h2 h3
            subst h2
            exact ⟨sl, hsl,
              lookupEntries_found_matches sl.data es es2 e
                (tableFind_cregexInv table m es hinv hes) hscan⟩
  · intro hshape
    have hx : extract_mnemonic line = none := by
      rw [extract_mnemonic, hshape]
      rfl
    simp only [lookup, hx]

/-- Witness for C5: a labelled `NOP` line with a trailing comment is
recognized, and a pure comment line yields no record. -/
theorem C5_lookup_shape_witness :
    ((∃ lbl op rest, lineMatch ("lbl: NOP ; x\n").data = some (lbl, op, rest)) ∧
        ∃ sl, remove_label "lbl: NOP ; x\n" = some sl ∧
          cregex_match eNOPi.regex sl.data = true) ∧
      lookup tblNOP "; pure comment\n" = some (none, tblNOP) := by
  have hinv : TableCregexInv tblNOP := by
    intro p hp e he hinit
    simp only [tblNOP, List.mem_singleton] at hp
    subst hp
    simp only [List.mem_singleton] at he
    subst he
    exact absurd hinit (by decide)
  constructor
  · exact (C5_lookup_shape tblNOP "lbl: NOP ; x\n" hinv).1 eNOPi
      (tableSet tblNOP "NOP" [eNOPi]) rfl
  · exact (C5_lookup_shape tblNOP "; pure comment\n" hinv).2 rfl

/-- Witness for C3: the trailing comment `" [4] keep"` holds one
annotation `[4]`; updating removes exactly it and keeps `" keep"`. -/
theorem C3_exact_removal_when_unique_witness :
    strip_old_comment (" ".data ++ "[4]".data ++ " keep".data) =
        " ".data ++ " keep".data ∧
      format_line ⟨"NOP ".data ++ ';' :: (" ".data ++ "[4]".data ++ " keep".data)⟩
          eSeven 7 0 false true 50 false false 8 =
        ⟨"NOP ".data ++ format_comment eSeven 7 0 false false ++
          ' ' :: pyLstrip (" ".data ++ " keep".data) ++ ['\n']⟩ :=
  C3_exact_removal_when_unique "NOP ".data " ".data "[4]".data " keep".data eSeven
    7 0 false 50 false false 8 (by decide) (by decide) (by decide) (by decide)
    (by decide)

/-!
## C4: ascending-weight priority

`_load_table` sorts the raw records by weight (a stable sort) before
grouping, and `lookup` scans each mnemonic's group in stored order, so a
mnemonic's records are tested in ascending-weight order and the first
match wins.
-/

theorem mem_insertByW (e y : Entry) :
    ∀ l : List Entry, y ∈ insertByW e l ↔ y = e ∨ y ∈ l := by
  intro l
  induction l with
  | nil => simp [insertByW]
  | cons x xs ih =>
    rw [insertByW]
    split <;> simp [List.mem_cons, ih] <;> tauto

theorem pairwise_insertByW (e : Entry) :
    ∀ l : List Entry, List.Pairwise (fun a b => a.w ≤ b.w) l →
      List.Pairwise (fun a b => a.w ≤ b.w) (insertByW e l) := by
  intro l
  induction l with
  | nil => intro _; exact List.pairwise_singleton _ _
  | cons x xs ih =>
    intro hp
    rw [List.pairwise_cons] at hp
    rw [insertByW]
    split
    · rename_i hlt
      rw [List.pairwise_cons]
      constructor
      · intro y hy
        rw [List.mem_cons] at hy
        rcases hy with rfl | hy
        · exact le_of_lt hlt
        · exact le_of_lt (lt_of_lt_of_le hlt (hp.1 y hy))
      · rw [List.pairwise_cons]
        exact hp
    · rename_i hge
      rw [List.pairwise_cons]
      constructor
      · intro y hy
        rw [mem_insertByW] at hy
        rcases hy with rfl | hy
        · exact not_lt.mp hge
        · exact hp.1 y hy
      · exact ih hp.2

theorem pairwise_sortByW (l : List Entry) :
    List.Pairwise (fun a b => a.w ≤ b.w) (sortByW l) := by
  rw [sortByW]
  have haux : ∀ (xs acc : List Entry),
      List.Pairwise (fun a b => a.w ≤ b.w) acc →
      List.Pairwise (fun a b => a.w ≤ b.w)
        (xs.foldl (fun acc e => insertByW e acc) acc) := by
    intro xs
    induction xs with
    | nil => intro acc h; exact h
    | cons x xs ih =>
      intro acc h
      rw [List.foldl_cons]
      exact ih _ (pairwise_insertByW x acc h)
  exact haux l [] List.Pairwise.nil

theorem tableFind_addToTable_same (m : String) (e : Entry) :
    ∀ t : Table, tableFind (addToTable t m e) m =
      some ((tableFind t m).getD [] ++ [e]) := by
  intro t
  induction t with
  | nil => simp [addToTable, tableFind]
  | cons p rest ih =>
    obtain ⟨k, es⟩ := p
    by_cases hk : k = m
    · subst hk
      simp [addToTable, tableFind]
    · simp [addToTable, tableFind, hk, ih]

theorem tableFind_addToTable_other (m m2 : String) (e : Entry) (hne : m2 ≠ m) :
    ∀ t : Table, tableFind (addToTable t m e) m2 = tableFind t m2 := by
  intro t
  induction t with
  | nil => simp [addToTable, tableFind, Ne.symm hne]
  | cons p rest ih =>
    obtain ⟨k, es⟩ := p
    by_cases hk : k = m
    · subst hk
      simp [addToTable, tableFind, Ne.symm hne, ih]
    · simp [addToTable, tableFind, hk, ih]

/-- Where each record ends up: after grouping, a mnemonic's list is
exactly the (order-preserving) selection of the processed records whose
canonical form yields that mnemonic. -/
theorem load_foldl_find (m : String) :
    ∀ (xs : List Entry) (acc t : Table),
      List.foldlM load_step acc xs = some t →
      (tableFind t m).getD [] =
        (tableFind acc m).getD [] ++
          xs.filter (fun e => extract_mnemonic e.caseStr = some m) := by
  intro xs
  induction xs with
  | nil =>
    intro acc t h
    rw [List.foldlM_nil] at h
    injection h with h1
    subst h1
    simp
  | cons x xs ih =>
    intro acc t h
    rw [List.foldlM_cons] at h
    cases hs : load_step acc x with
    | none => rw [hs] at h; cases h
    | some acc2 =>
      rw [hs] at h
      simp only [Option.bind_eq_bind, Option.some_bind] at h
      rw [load_step] at hs
      cases hmx : extract_mnemonic x.caseStr with
      | none => rw [hmx] at hs; cases hs
      | some mx =>
        rw [hmx] at hs
        injection hs with hs2
        subst hs2
        have hrec := ih (addToTable acc mx x) t h
        rw [hrec]
        by_cases hmm : mx = m
        · subst hmm
          rw [tableFind_addToTable_same]
          simp [hmx, List.append_assoc]
        · rw [tableFind_addToTable_other mx m x (fun hc => hmm hc.symm)]
          simp [hmx, hmm]

/-- **C4.** (1) In a loaded table every mnemonic's records are in
ascending-weight order (the scan in `lookup` tests them in list order,
first match wins).  (2) In particular: two records of the same mnemonic
with weights 1 and 2, loaded in either order, and a line whose
label-stripped text matches both patterns — the lookup returns the
(initialized) weight-1 record. -/
theorem C4_priority_order :
    (∀ (raw : List Entry) (t : Table) (m : String) (es : List Entry),
        load_table raw = some t → tableFind t m = some es →
        List.Pairwise (fun a b => a.w ≤ b.w) es) ∧
      (∀ (e1 e2 e1i : Entry) (m : String) (t : Table) (line sl : String)
          (raw : List Entry),
          e1.w = 1 → e2.w = 2 →
          extract_mnemonic e1.caseStr = some m →
          extract_mnemonic e2.caseStr = some m →
          raw = [e1, e2] ∨ raw = [e2, e1] →
          load_table raw = some t →
          extract_mnemonic line = some m →
          remove_label line = some sl →
          e1.initialized = false →
          init_entry e1 = some e1i →
          cregex_match e1.regex sl.data = true →
          cregex_match e2.regex sl.data = true →
          lookup t line = some (some e1i, [(m, [e1i, e2])])) := by
  constructor
  · intro raw t m es hload hfind
    have h := load_foldl_find m (sortByW raw) [] t hload
    rw [hfind] at h
    simp only [Option.getD_some, tableFind, Option.getD_none, List.nil_append] at h
    subst h
    exact List.Pairwise.sublist (List.filter_sublist _) (pairwise_sortByW raw)
  · intro e1 e2 e1i m t line sl raw hw1 hw2 hm1 hm2 hraw hload hline hsl hi1
      hinit1 hmatch1 hmatch2
    have h12 : (1 : Int) < 2 := by norm_num
    have h21 : ¬ (2 : Int) < 1 := by norm_num
    have hsort : sortByW raw = [e1, e2] := by
      rcases hraw with rfl | rfl
      · simp [sortByW, insertByW, hw1, hw2, h21]
      · simp [sortByW, insertByW, hw1, hw2, h12]
    have hload2 : load_table raw = some [(m, [e1, e2])] := by
      rw [load_table, hsort]
      simp [List.foldlM, load_step, hm1, hm2, addToTable]
    rw [hload2] at hload
    injection hload with h1
    subst h1
    have hcr : e1i.cregex = some (cregex_match e1.regex) :=
      (init_entry_fields _ _ hinit1).1
    simp [lookup, hline, tableFind, hsl, lookupEntries, hi1, hinit1, hcr,
      hmatch1, tableSet]

/-- Records for the C4 witness: a specific-operand form with weight 1
and a catch-all form with weight 2, same mnemonic. -/
def eLDspec : Entry :=
  { caseStr := "LD A, (HL)", regex := fun l => l == "LD A, (HL)".data,
    cycles := "7", w := 1 }

/-- The catch-all weight-2 record. -/
def eLDgen : Entry :=
  { caseStr := "LD A, r", regex := fun _ => true, cycles := "4", w := 2 }

/-- `eLDspec` after `Parser._init_entry`. -/
def eLDspecI : Entry :=
  { caseStr := "LD A, (HL)", regex := fun l => l == "LD A, (HL)".data,
    cycles := "7", w := 1,
    cregex := some (cregex_match (fun l => l == "LD A, (HL)".data)),
    t_states_or_not_met := some 7, t_states_met := some 0, initialized := true }

/-- Witness for C4: loading `[eLDgen, eLDspec]` (reverse weight order)
groups them as `[eLDspec, eLDgen]`, and a line matching both patterns
returns the weight-1 record. -/
theorem C4_priority_order_witness :
    List.Pairwise (fun a b => a.w ≤ b.w) [eLDspec, eLDgen] ∧
      lookup [("LD", [eLDspec, eLDgen])] "LD A, (HL)\n" =
        some (some eLDspecI, [("LD", [eLDspecI, eLDgen])]) := by
  constructor
  · exact C4_priority_order.1 [eLDgen, eLDspec] [("LD", [eLDspec, eLDgen])] "LD"
      [eLDspec, eLDgen] rfl rfl
  · exact C4_priority_order.2 eLDspec eLDgen eLDspecI "LD"
      [("LD", [eLDspec, eLDgen])] "LD A, (HL)\n" "LD A, (HL)"
      [eLDgen, eLDspec] rfl rfl rfl rfl (Or.inr rfl) rfl rfl rfl rfl rfl
      (by decide) (by decide)

end Z80Count
